import Mathlib

/-!
Verification of the in-memory pattern store implemented by
`src/core/MemoryManager.js` (class `MemoryManager`).

The class keeps two parallel in-memory lists, `this.patterns` (outcome
entries) and `this.vectors` (128-dimensional feature vectors), plus a
causal graph of directed edges between consecutive entries.  The public
operations embedded here are `storePattern`, `findSimilar`,
`getCausalReasoning`, the synchronous `getSkills`, and the internal
helpers `_patternToVector` and `_manualCosineSimilarity`.

Numeric conventions of the embedding: JavaScript numbers that the code
stores and compares (prices, outcomes, vector components) are modelled
as rationals `ℚ`; the cosine-similarity scores, which involve a square
root, live in `ℝ`.  `Date.now()` is modelled as an explicit timestamp
argument supplied by the caller.  The optional AgentDB backend calls
(`skillLibrary`, `reflexion`) do not change the in-memory lists and are
not modelled; the causal-graph backend is modelled from the spec (§4.3)
as an append-only edge list, since `agentdb.CausalMemoryGraph` is not
part of this repository.
-/

namespace NeuralTrading

/-- A pattern record as consumed by `storePattern`/`_patternToVector`:
`action`, `price`, `volume`, `momentum`, `cash`, `positions`.
`momentum` and `positions` are read with `|| 0` in the source, so they
are optional here. -/
structure Pattern where
  action : String
  price : ℚ
  volume : ℚ
  momentum : Option ℚ
  cash : ℚ
  positions : Option ℚ
deriving DecidableEq

/-- The fixed action vocabulary of the one-hot encoder
(`const actions = ['buy', 'sell', 'hold']`). -/
def actions : List String := ["buy", "sell", "hold"]

/-- Embedding of `_patternToVector(pattern)`: a 128-entry vector, all
zeros except dimensions 0-4 (normalized scalar features) and the one-hot
action slot `5 + actionIdx` when the action is in the vocabulary.
JavaScript `indexOf` returns `-1` on a miss; Lean's `List.indexOf`
returns `actions.length`, so the source guard `actionIdx !== -1` becomes
`actionIdx < actions.length`. -/
def patternToVector (pattern : Pattern) : List ℚ :=
  let vector : List ℚ := List.replicate 128 0
  let vector := vector.set 0 (pattern.price / 1000)
  let vector := vector.set 1 (pattern.volume / 10000)
  let vector := vector.set 2 (pattern.momentum.getD 0)
  let vector := vector.set 3 (pattern.cash / 100000)
  let vector := vector.set 4 (pattern.positions.getD 0)
  let actionIdx := actions.indexOf pattern.action
  if actionIdx < actions.length then vector.set (5 + actionIdx) 1 else vector

/-- The entry object built by `storePattern`: the stored pattern, its
outcome, the ingestion timestamp, `success = outcome > 0`, a copy of the
action tag, and the sequence id `this.patterns.length`. -/
structure Entry where
  pattern : Pattern
  outcome : ℚ
  timestamp : ℕ
  success : Bool
  action : String
  id : ℕ
deriving DecidableEq

/-- A causal edge as passed to `causalGraph.addCausalEdge(prevId, id,
outcome - prev.outcome, 0.8, 1)`. -/
structure CausalEdge where
  fromId : ℕ
  toId : ℕ
  deltaOutcome : ℚ
  confidence : ℚ
  weight : ℚ
deriving DecidableEq

/-- The in-memory state of a `MemoryManager` instance: the parallel
lists `this.patterns` and `this.vectors`, plus the causal-graph edge
list.  The edge list is Modelled from the spec: `agentdb.CausalMemoryGraph`
is not in this repository; per spec §4.3 `addEdge` records a directed
edge (append, no validation) and `effectsOf id` returns the edges with
`fromId == id` in insertion order. -/
structure MemoryManager where
  patterns : List Entry
  vectors : List (List ℚ)
  causalEdges : List CausalEdge
deriving DecidableEq

/-- A freshly constructed store: empty lists. -/
def initialManager : MemoryManager := ⟨[], [], []⟩

/-- Embedding of `storePattern(pattern, outcome)` (in-memory path):
build the entry, push the embedding onto `vectors` and the entry onto
`patterns` together, and, when a prior entry exists
(`this.patterns.length > 1` after the push), add the causal edge from
the previous entry `this.patterns[this.patterns.length - 2]`.  Returns
the new state and the entry. -/
def storePattern (st : MemoryManager) (pattern : Pattern) (outcome : ℚ) (now : ℕ) :
    MemoryManager × Entry :=
  let embedding := patternToVector pattern
  let entry : Entry :=
    { pattern := pattern, outcome := outcome, timestamp := now,
      success := decide (0 < outcome), action := pattern.action,
      id := st.patterns.length }
  let vectors := st.vectors ++ [embedding]
  let patterns := st.patterns ++ [entry]
  let causalEdges :=
    match st.patterns.getLast? with
    | some prevPattern =>
        st.causalEdges ++
          [⟨prevPattern.id, entry.id, outcome - prevPattern.outcome, 4/5, 1⟩]
    | none => st.causalEdges
  (⟨patterns, vectors, causalEdges⟩, entry)

/-- One recorded call to `storePattern`: the arguments and the ambient
`Date.now()` value. -/
structure StoreCall where
  pattern : Pattern
  outcome : ℚ
  now : ℕ
deriving DecidableEq

/-- The store state reached from a fresh instance by a sequence of
`storePattern` calls (the only state-mutating operation). -/
def mkState (calls : List StoreCall) : MemoryManager :=
  calls.foldl (fun st c => (storePattern st c.pattern c.outcome c.now).1) initialManager

/-- Dot product accumulated by the `_manualCosineSimilarity` loop. -/
def dotL (a b : List ℚ) : ℚ := (List.zipWith (· * ·) a b).sum

/-- Sum of squares accumulated by the `_manualCosineSimilarity` loop. -/
def sumSq (a : List ℚ) : ℚ := (a.map fun x => x * x).sum

open Classical in
/-- Per-vector body of `_manualCosineSimilarity`: dot product and both
magnitudes in one pass, then the zero-magnitude guard.  The source loop
runs over `queryVector.length`; query and stored vectors always share
length 128, which the list `zipWith` reflects. -/
noncomputable def cosineSim (queryVector vec : List ℚ) : ℝ :=
  let dotProduct : ℚ := dotL queryVector vec
  let queryMagnitude : ℝ := Real.sqrt ((sumSq queryVector : ℚ) : ℝ)
  let vecMagnitude : ℝ := Real.sqrt ((sumSq vec : ℚ) : ℝ)
  if queryMagnitude = 0 ∨ vecMagnitude = 0 then 0
  else (dotProduct : ℝ) / (queryMagnitude * vecMagnitude)

/-- Embedding of `_manualCosineSimilarity(queryVector, vectors)`. -/
noncomputable def manualCosineSimilarity (queryVector : List ℚ) (vectors : List (List ℚ)) :
    List ℝ :=
  vectors.map (cosineSim queryVector)

/-- A result object built inside `findSimilar`. -/
structure SimilarResult where
  pattern : Pattern
  outcome : ℚ
  timestamp : ℕ
  success : Bool
  similarity : ℝ

open Classical in
/-- The comparator of `results.sort((a, b) => b.similarity - a.similarity)`:
`a` may precede `b` exactly when the comparator is `≤ 0`, i.e.
`b.similarity ≤ a.similarity` (descending). -/
noncomputable def simLE (a b : SimilarResult) : Bool :=
  decide (b.similarity ≤ a.similarity)

/-- The `results` array of `findSimilar`: each stored entry paired with
its similarity score against the encoded query.  `patterns` and
`vectors` always have equal length (see `storePattern`), which the `zip`
reflects. -/
noncomputable def queryResults (st : MemoryManager) (currentPattern : Pattern) :
    List SimilarResult :=
  let queryVector := patternToVector currentPattern
  (st.patterns.zip (manualCosineSimilarity queryVector st.vectors)).map fun es =>
    { pattern := es.1.pattern, outcome := es.1.outcome, timestamp := es.1.timestamp,
      success := es.1.success, similarity := es.2 }

/-- Embedding of `findSimilar(currentPattern, k)` (manual-similarity
path): empty store short-circuits to `[]`; otherwise filter the results
for `success`, sort by similarity descending (JavaScript `sort` is
stable: `List.mergeSort`), and keep the first `k`. -/
noncomputable def findSimilar (st : MemoryManager) (currentPattern : Pattern) (k : ℕ := 5) :
    List SimilarResult :=
  if st.vectors.length = 0 then []
  else (((queryResults st currentPattern).filter fun r => r.success).mergeSort simLE).take k

/-- Modelled from the spec: `causalGraph.queryCausalEffects(id)` of
`agentdb.CausalMemoryGraph` (not in this repository); per spec §4.3
`effectsOf(id)` returns the edges with `fromId == id`, insertion order
preserved, empty when none originate at `id`. -/
def queryCausalEffects (st : MemoryManager) (id : ℕ) : List CausalEdge :=
  st.causalEdges.filter fun e => e.fromId == id

/-- The result object of `getCausalReasoning`. -/
structure CausalReasoning where
  action : String
  causalPaths : List CausalEdge
  insight : String
deriving DecidableEq

/-- Embedding of `getCausalReasoning(action)`: filter the stored entries
by action tag; with no match return the empty default; otherwise query
the causal effects of the most recent matching entry.  The source reads
`patterns[patterns.length - 1]` after a `length === 0` check, which is
`getLast?` here; `lastPattern.id || 0` evaluates to `lastPattern.id`
(when the id is 0 the `|| 0` still yields 0). -/
def getCausalReasoning (st : MemoryManager) (action : String) : CausalReasoning :=
  let patterns := st.patterns.filter fun p => p.action == action
  match patterns.getLast? with
  | none =>
      { action := action, causalPaths := [],
        insight := "No patterns found for this action" }
  | some lastPattern =>
      let effects := queryCausalEffects st lastPattern.id
      { action := action, causalPaths := effects,
        insight := "Found " ++ toString effects.length ++
          " causal relationships for action: " ++ action }

/-- A skill record of the synchronous `getSkills()`. -/
structure Skill where
  name : String
  pattern : Pattern
deriving DecidableEq

/-- Embedding of the synchronous `getSkills()` (the later class-body
definition, which shadows the async one): the successful entries, in
insertion order, mapped to `{name: p.pattern.action, pattern: p.pattern}`. -/
def getSkills (st : MemoryManager) : List Skill :=
  (st.patterns.filter fun p => p.success).map fun p =>
    { name := p.pattern.action, pattern := p.pattern }

/-! ### Structural characterization of reachable states -/

/-- The entry that `storePattern` builds for the `i`-th call. -/
def entryOf (i : ℕ) (c : StoreCall) : Entry :=
  { pattern := c.pattern, outcome := c.outcome, timestamp := c.now,
    success := decide (0 < c.outcome), action := c.pattern.action, id := i }

/-- The causal chain the spec describes (§3, §4.5): one edge per pair of
consecutive ingestions, linking id `i` to id `i + 1` with
`deltaOutcome = outcome - previous.outcome`, confidence `0.8 = 4/5` and
weight `1`. -/
def chainFrom : ℕ → List StoreCall → List CausalEdge
  | _, [] => []
  | _, [_] => []
  | i, a :: b :: rest =>
      ⟨i, i + 1, b.outcome - a.outcome, 4/5, 1⟩ :: chainFrom (i + 1) (b :: rest)

theorem enumFrom_concat (a : α) :
    ∀ (n : ℕ) (l : List α), List.enumFrom n (l ++ [a]) = List.enumFrom n l ++ [(n + l.length, a)]
  | n, [] => by simp
  | n, x :: l => by
      simp only [List.cons_append, List.enumFrom_cons, enumFrom_concat a (n + 1) l,
        List.length_cons]
      simp [Nat.add_comm, Nat.add_assoc, Nat.add_left_comm]

theorem enum_concat (a : α) (l : List α) :
    (l ++ [a]).enum = l.enum ++ [(l.length, a)] := by
  simpa using enumFrom_concat a 0 l

theorem mkState_concat (ops : List StoreCall) (c : StoreCall) :
    mkState (ops ++ [c]) = (storePattern (mkState ops) c.pattern c.outcome c.now).1 := by
  simp [mkState, List.foldl_append]

theorem chainFrom_concat :
    ∀ (l : List StoreCall) (i : ℕ) (d c : StoreCall),
      chainFrom i (l ++ [d, c]) =
        chainFrom i (l ++ [d]) ++
          [⟨i + l.length, i + l.length + 1, c.outcome - d.outcome, 4/5, 1⟩]
  | [], i, d, c => by simp [chainFrom]
  | [a], i, d, c => by
      simp [chainFrom, Nat.add_comm]
  | a :: b :: l, i, d, c => by
      have ih := chainFrom_concat (b :: l) (i + 1) d c
      simp only [List.cons_append, chainFrom, List.append_eq] at ih ⊢
      rw [ih]
      simp [List.length_cons, Nat.add_comm, Nat.add_assoc, Nat.add_left_comm]

/-- Closed form of every state reachable by a sequence of `storePattern`
calls: the entry list is the ingestion list with ids `0, 1, 2, …`, the
vector list is the encoded patterns in the same order, and the causal
graph is the consecutive chain. -/
theorem mkState_spec (ops : List StoreCall) :
    (mkState ops).patterns = ops.enum.map (fun ic => entryOf ic.1 ic.2)
    ∧ (mkState ops).vectors = ops.map (fun c => patternToVector c.pattern)
    ∧ (mkState ops).causalEdges = chainFrom 0 ops := by
  induction ops using List.reverseRecOn with
  | nil => simp [mkState, initialManager, chainFrom]
  | append_singleton ops c ih =>
      obtain ⟨hp, hv, he⟩ := ih
      have hlen : (mkState ops).patterns.length = ops.length := by
        simp [hp]
      rw [mkState_concat]
      refine ⟨?_, ?_, ?_⟩
      · simp only [storePattern]
        rw [hlen, hp, enum_concat, List.map_append]
        rfl
      · simp [storePattern, hv]
      · rcases ops.eq_nil_or_concat with rfl | ⟨ops', d, rfl⟩
        · simp [storePattern, mkState, initialManager, chainFrom]
        · simp only [List.concat_eq_append] at hp he hlen
          have hlast : (mkState (ops' ++ [d])).patterns.getLast? =
              some (entryOf ops'.length d) := by
            rw [hp, enum_concat, List.map_append]
            simp
          simp only [storePattern, List.concat_eq_append, hlast, hlen, he]
          rw [List.append_assoc]
          simp only [List.singleton_append]
          rw [chainFrom_concat ops' 0 d c]
          simp [entryOf]

theorem patternToVector_length (p : Pattern) : (patternToVector p).length = 128 := by
  simp only [patternToVector]
  split <;> simp

theorem enumFrom_filter_map_snd {α β : Type _} (p : α → Bool) (f : α → β) :
    ∀ (n : ℕ) (l : List α),
      ((List.enumFrom n l).filter fun x => p x.2).map (fun x => f x.2) =
        (l.filter p).map f
  | _, [] => by simp
  | n, a :: l => by
      by_cases h : p a <;>
        simp [List.filter_cons, h, enumFrom_filter_map_snd p f (n + 1) l]

/-- C4: after any sequence of `storePattern` calls the stored entries
carry the sequence ids `0, 1, …, n-1` in order: the `k`-th entry ever
stored has id exactly `k`, so ids are dense, strictly increasing from 0,
unique and never reused. -/
theorem sequence_ids_dense (ops : List StoreCall) :
    ((mkState ops).patterns.map fun e => e.id) = List.range ops.length
    ∧ (mkState ops).patterns.length = ops.length := by
  have h := (mkState_spec ops).1
  constructor
  · rw [h, List.map_map]
    have hc : ((fun e => e.id) ∘ fun ic : ℕ × StoreCall => entryOf ic.1 ic.2) = Prod.fst :=
      rfl
    rw [hc, List.enum_map_fst]
  · simp [h]

/-- C5: after any sequence of operations the vector list and the entry
list have the same length (they are pushed together in the single
mutation point), and every stored vector has exactly 128 dimensions. -/
theorem store_parallel_lists (ops : List StoreCall) :
    ((mkState ops).vectors.map List.length) = List.replicate ops.length 128
    ∧ (mkState ops).vectors.length = (mkState ops).patterns.length := by
  obtain ⟨hp, hv, -⟩ := mkState_spec ops
  have hall : ∀ l : List StoreCall,
      ((l.map fun c => patternToVector c.pattern).map List.length) =
        List.replicate l.length 128 := by
    intro l
    induction l with
    | nil => simp
    | cons c t ih => simp [List.map_cons, patternToVector_length, ih, List.replicate_succ]
  constructor
  · rw [hv]
    exact hall ops
  · simp [hp, hv]

/-- C3: the causal graph of any reachable state is exactly the chain
described by the spec: one edge per `storePattern` call that found a
prior entry, from the previous id `i` to the new id `i + 1`, with
`deltaOutcome` the difference of consecutive outcomes, confidence `4/5`
(0.8) and weight `1`; no edge is created at any other time. -/
theorem causal_chain (ops : List StoreCall) :
    (mkState ops).causalEdges = chainFrom 0 ops :=
  (mkState_spec ops).2.2

/-- C9: the synchronous `getSkills()` returns exactly the ingestions
with strictly positive outcome, in insertion order, each mapped to a
record with `name` the pattern's action and `pattern` the stored
pattern. -/
theorem getSkills_successful (ops : List StoreCall) :
    getSkills (mkState ops) =
      (ops.filter fun c => decide (0 < c.outcome)).map fun c =>
        { name := c.pattern.action, pattern := c.pattern } := by
  rw [getSkills, (mkState_spec ops).1, List.filter_map, List.map_map]
  have hfilter :
      ((fun p : Entry => p.success) ∘ fun ic : ℕ × StoreCall => entryOf ic.1 ic.2) =
        fun ic : ℕ × StoreCall => decide (0 < ic.2.outcome) := rfl
  have hmap :
      ((fun p : Entry => ({ name := p.pattern.action, pattern := p.pattern } : Skill)) ∘
          fun ic : ℕ × StoreCall => entryOf ic.1 ic.2) =
        fun ic : ℕ × StoreCall =>
          ({ name := ic.2.pattern.action, pattern := ic.2.pattern } : Skill) := rfl
  rw [hfilter, hmap]
  simpa using
    enumFrom_filter_map_snd (fun c : StoreCall => decide (0 < c.outcome))
      (fun c : StoreCall => ({ name := c.pattern.action, pattern := c.pattern } : Skill))
      0 ops

/-- Normal form of the encoder output: the five normalized scalars, the
one-hot action slice over `[buy, sell, hold]`, then 120 zeros. -/
theorem patternToVector_normal (p : Pattern) :
    patternToVector p =
      [p.price / 1000, p.volume / 10000, p.momentum.getD 0, p.cash / 100000,
        p.positions.getD 0,
        (if p.action = "buy" then 1 else 0),
        (if p.action = "sell" then 1 else 0),
        (if p.action = "hold" then 1 else 0)] ++ List.replicate 120 0 := by
  obtain ⟨a, pr, vo, mo, ca, po⟩ := p
  by_cases h1 : a = "buy"
  · subst h1; rfl
  by_cases h2 : a = "sell"
  · subst h2; rfl
  by_cases h3 : a = "hold"
  · subst h3; rfl
  have hmem : a ∉ actions := by simp [actions, h1, h2, h3]
  simp only [patternToVector]
  rw [List.indexOf_of_not_mem hmem]
  rw [if_neg (lt_irrefl _)]
  show _ =
      [pr / 1000, vo / 10000, mo.getD 0, ca / 100000, po.getD 0,
        (if a = "buy" then 1 else 0), (if a = "sell" then 1 else 0),
        (if a = "hold" then 1 else 0)] ++ List.replicate 120 0
  rw [if_neg h1, if_neg h2, if_neg h3]
  rfl

/-- C2: `encode` is a total function producing a 128-vector whose
dimensions 0-4 are the normalized scalars (momentum and positions
defaulting to 0 when absent), dimensions 5-7 the one-hot encoding of the
action over `[buy, sell, hold]` (all zero for an unknown action, no
error), and dimensions 8 and up all zero. -/
theorem patternToVector_spec (p : Pattern) :
    (patternToVector p).length = 128
    ∧ (patternToVector p).getD 0 0 = p.price / 1000
    ∧ (patternToVector p).getD 1 0 = p.volume / 10000
    ∧ (patternToVector p).getD 2 0 = p.momentum.getD 0
    ∧ (patternToVector p).getD 3 0 = p.cash / 100000
    ∧ (patternToVector p).getD 4 0 = p.positions.getD 0
    ∧ (patternToVector p).getD 5 0 = (if p.action = "buy" then 1 else 0)
    ∧ (patternToVector p).getD 6 0 = (if p.action = "sell" then 1 else 0)
    ∧ (patternToVector p).getD 7 0 = (if p.action = "hold" then 1 else 0)
    ∧ (patternToVector p).drop 8 = List.replicate 120 0 := by
  refine ⟨patternToVector_length p, ?_, ?_, ?_, ?_, ?_, ?_, ?_, ?_, ?_⟩ <;>
    rw [patternToVector_normal p] <;> rfl

/-! ### The cosine-similarity routine -/

/-- The spec's vector magnitude: the square root of the sum of squares,
exactly the quantity the source computes before its zero guard. -/
noncomputable def magnitude (v : List ℚ) : ℝ := Real.sqrt ((sumSq v : ℚ) : ℝ)

theorem sumSq_nonneg (v : List ℚ) : 0 ≤ sumSq v := by
  apply List.sum_nonneg
  intro x hx
  obtain ⟨y, -, rfl⟩ := List.mem_map.mp hx
  exact mul_self_nonneg y

theorem dotL_self (v : List ℚ) : dotL v v = sumSq v := by
  induction v with
  | nil => rfl
  | cons x t ih =>
      simp only [dotL, sumSq, List.zipWith_cons_cons, List.map_cons, List.sum_cons] at ih ⊢
      rw [ih]

open Classical in
theorem cosineSim_eq (a b : List ℚ) :
    cosineSim a b =
      if magnitude a = 0 ∨ magnitude b = 0 then 0
      else (dotL a b : ℝ) / (magnitude a * magnitude b) := rfl

/-- Cauchy-Schwarz for the list dot product over `ℚ`. -/
theorem dotL_sq_le (a : List ℚ) : ∀ b : List ℚ, (dotL a b) ^ 2 ≤ sumSq a * sumSq b := by
  induction a with
  | nil => intro b; simp [dotL, sumSq]
  | cons x a ih =>
      intro b
      cases b with
      | nil => simp [dotL, sumSq]
      | cons y b =>
          have h := ih b
          have ha := sumSq_nonneg a
          have hb := sumSq_nonneg b
          have hxy : dotL (x :: a) (y :: b) = x * y + dotL a b := by
            simp [dotL]
          have hsa : sumSq (x :: a) = x * x + sumSq a := by simp [sumSq]
          have hsb : sumSq (y :: b) = y * y + sumSq b := by simp [sumSq]
          rw [hxy, hsa, hsb]
          by_cases hA : sumSq a = 0
          · have hd2 : dotL a b ^ 2 = 0 := by
              refine le_antisymm ?_ (sq_nonneg _)
              rw [hA] at h
              simpa using h
            have hd : dotL a b = 0 := sq_eq_zero_iff.mp hd2
            rw [hA, hd]
            nlinarith [mul_nonneg (mul_self_nonneg x) hb]
          · have hA' : 0 < sumSq a := lt_of_le_of_ne ha (Ne.symm hA)
            have h2 : 0 ≤ sumSq a * sumSq b - dotL a b ^ 2 := sub_nonneg.mpr h
            nlinarith [sq_nonneg (sumSq a * y - x * dotL a b),
              mul_nonneg (sq_nonneg x) h2, mul_nonneg ha h2, hA']

theorem abs_cosineSim_le_one (a b : List ℚ) : |cosineSim a b| ≤ 1 := by
  rw [cosineSim_eq]
  split_ifs with h
  · simp
  · push_neg at h
    obtain ⟨ha0, hb0⟩ := h
    have ha' : (0:ℝ) ≤ ((sumSq a : ℚ) : ℝ) := by exact_mod_cast sumSq_nonneg a
    have hb' : (0:ℝ) ≤ ((sumSq b : ℚ) : ℝ) := by exact_mod_cast sumSq_nonneg b
    have hma : 0 < magnitude a :=
      lt_of_le_of_ne (Real.sqrt_nonneg _) (Ne.symm ha0)
    have hmb : 0 < magnitude b :=
      lt_of_le_of_ne (Real.sqrt_nonneg _) (Ne.symm hb0)
    rw [abs_div, div_le_one (by positivity), abs_of_pos (mul_pos hma hmb)]
    have hcs : ((dotL a b : ℚ) : ℝ) ^ 2 ≤ ((sumSq a : ℚ) : ℝ) * ((sumSq b : ℚ) : ℝ) := by
      exact_mod_cast dotL_sq_le a b
    calc |((dotL a b : ℚ) : ℝ)|
        = Real.sqrt (((dotL a b : ℚ) : ℝ) ^ 2) := (Real.sqrt_sq_eq_abs _).symm
      _ ≤ Real.sqrt (((sumSq a : ℚ) : ℝ) * ((sumSq b : ℚ) : ℝ)) := Real.sqrt_le_sqrt hcs
      _ = magnitude a * magnitude b := Real.sqrt_mul ha' _

/-- C6: the similarity routine computes `dot / (|a| * |b|)` when both
magnitudes are non-zero and returns exactly 0 (not NaN, not an error)
when either magnitude is zero; in particular the similarity against the
zero vector is 0. -/
theorem cosineSim_guarded (a b : List ℚ) (_hlen : a.length = b.length) :
    (magnitude a ≠ 0 → magnitude b ≠ 0 →
        cosineSim a b = (dotL a b : ℝ) / (magnitude a * magnitude b))
    ∧ ((magnitude a = 0 ∨ magnitude b = 0) → cosineSim a b = 0)
    ∧ cosineSim a (List.replicate b.length 0) = 0 := by
  refine ⟨?_, ?_, ?_⟩
  · intro ha hb
    rw [cosineSim_eq, if_neg (not_or.mpr ⟨ha, hb⟩)]
  · intro h0
    rw [cosineSim_eq, if_pos h0]
  · have hz : magnitude (List.replicate b.length 0) = 0 := by
      simp [magnitude, sumSq]
    rw [cosineSim_eq, if_pos (Or.inr hz)]

/-- Witness for C6 at the concrete pair `[1]`, `[2]`. -/
theorem cosineSim_guarded_witness :
    (magnitude [1] ≠ 0 → magnitude [2] ≠ 0 →
        cosineSim [1] [2] = (dotL [1] [2] : ℝ) / (magnitude [1] * magnitude [2]))
    ∧ ((magnitude [1] = 0 ∨ magnitude [2] = 0) → cosineSim [1] [2] = 0)
    ∧ cosineSim [1] (List.replicate ([2] : List ℚ).length 0) = 0 :=
  cosineSim_guarded [1] [2] rfl

/-- C7: self-similarity of a non-zero vector is exactly 1. -/
theorem cosineSim_self_eq_one (v : List ℚ) (h : ∃ x ∈ v, x ≠ 0) :
    cosineSim v v = 1 := by
  obtain ⟨x, hx, hx0⟩ := h
  have hxx : (0:ℚ) < x * x := mul_self_pos.mpr hx0
  have hmem : x * x ∈ v.map fun y => y * y := List.mem_map_of_mem _ hx
  have hle : x * x ≤ sumSq v := by
    refine List.single_le_sum (fun y hy => ?_) _ hmem
    obtain ⟨z, -, rfl⟩ := List.mem_map.mp hy
    exact mul_self_nonneg z
  have hpos : (0:ℚ) < sumSq v := lt_of_lt_of_le hxx hle
  have hpos' : (0:ℝ) < ((sumSq v : ℚ) : ℝ) := by exact_mod_cast hpos
  have hs : magnitude v ≠ 0 :=
    ne_of_gt (Real.sqrt_pos.mpr hpos')
  rw [cosineSim_eq, if_neg (not_or.mpr ⟨hs, hs⟩), dotL_self,
    show magnitude v * magnitude v = ((sumSq v : ℚ) : ℝ) from Real.mul_self_sqrt hpos'.le]
  exact div_self (ne_of_gt hpos')

/-- Witness for C7 at the concrete non-zero vector `[1]`. -/
theorem cosineSim_self_eq_one_witness : cosineSim [1] [1] = 1 :=
  cosineSim_self_eq_one [1] ⟨1, List.mem_singleton.mpr rfl, one_ne_zero⟩

/-- Every similarity score in a `findSimilar` result is a cosine
similarity of the encoded query against some stored vector. -/
theorem mem_findSimilar_similarity {st : MemoryManager} {p : Pattern} {k : ℕ}
    {r : SimilarResult} (hr : r ∈ findSimilar st p k) :
    ∃ v ∈ st.vectors, r.similarity = cosineSim (patternToVector p) v := by
  simp only [findSimilar] at hr
  split_ifs at hr
  · exact absurd hr (List.not_mem_nil r)
  · have h1 : r ∈ ((queryResults st p).filter fun r => r.success).mergeSort simLE :=
      List.mem_of_mem_take hr
    rw [List.mem_mergeSort] at h1
    have h2 : r ∈ queryResults st p := List.mem_of_mem_filter h1
    simp only [queryResults, List.mem_map] at h2
    obtain ⟨⟨e, s⟩, hmem, rfl⟩ := h2
    obtain ⟨-, hs⟩ := List.of_mem_zip hmem
    simp only [manualCosineSimilarity, List.mem_map] at hs
    obtain ⟨v, hv, rfl⟩ := hs
    exact ⟨v, hv, rfl⟩

/-- C10: every score of the reference cosine routine lies in `[-1, 1]`
(Cauchy-Schwarz in the non-zero case, the zero guard otherwise), and so
does every similarity in any `findSimilar` result. -/
theorem similarity_bounded (a b : List ℚ) (st : MemoryManager) (p : Pattern) (k : ℕ) :
    (a.length = b.length → |cosineSim a b| ≤ 1)
    ∧ ((findSimilar st p k).Forall fun r => |r.similarity| ≤ 1) := by
  refine ⟨fun _ => abs_cosineSim_le_one a b, ?_⟩
  rw [List.forall_iff_forall_mem]
  intro r hr
  obtain ⟨v, -, hv⟩ := mem_findSimilar_similarity hr
  rw [hv]
  exact abs_cosineSim_le_one _ _

/-- A concrete pattern used by the closed witnesses. -/
def samplePattern : Pattern := ⟨"buy", 100, 5000, none, 20000, none⟩

/-- Witness for C10 at the concrete pair `[1]`, `[1]`. -/
theorem similarity_bounded_witness : |cosineSim [1] [1]| ≤ 1 :=
  (similarity_bounded [1] [1] initialManager samplePattern 5).1 rfl

/-! ### Query operations on empty or unmatched input -/

/-- C8: `findSimilar` on an empty store returns the empty sequence, and
`getCausalReasoning` for an action with no matching stored entry returns
the action, empty `causalPaths` and the explanatory insight string;
neither raises. -/
theorem empty_query_defaults (st : MemoryManager) (p : Pattern) (k : ℕ) (a : String) :
    (st.vectors = [] → findSimilar st p k = [])
    ∧ ((st.patterns.filter fun e => e.action == a) = [] →
        getCausalReasoning st a = ⟨a, [], "No patterns found for this action"⟩) := by
  constructor
  · intro hv
    simp [findSimilar, hv]
  · intro hp
    simp [getCausalReasoning, hp]

/-- Witness for C8 on the freshly constructed (empty) store. -/
theorem empty_query_defaults_witness :
    findSimilar initialManager samplePattern 5 = []
    ∧ getCausalReasoning initialManager "buy" =
        ⟨"buy", [], "No patterns found for this action"⟩ :=
  ⟨(empty_query_defaults initialManager samplePattern 5 "buy").1 rfl,
    (empty_query_defaults initialManager samplePattern 5 "buy").2 rfl⟩

/-! ### The similarity ranking -/

open Classical in
/-- Definition following the spec's words (§4.2 `query`): keep the
successful results in insertion order, tag each with its rank in that
order, sort by the linear order "higher similarity first, equal
similarities by lower rank first" (`List.enumLE simLE` is exactly this
order), strip the ranks and truncate to `k`. -/
noncomputable def specRankedQuery (results : List SimilarResult) (k : ℕ) :
    List SimilarResult :=
  ((((results.filter fun r => r.success).enum).mergeSort (List.enumLE simLE)).map
    fun x => x.2).take k

theorem simLE_trans (a b c : SimilarResult) : simLE a b → simLE b c → simLE a c := by
  simp only [simLE, decide_eq_true_eq]
  exact fun h1 h2 => le_trans h2 h1

theorem simLE_total (a b : SimilarResult) : simLE a b || simLE b a := by
  simp only [simLE, Bool.or_eq_true, decide_eq_true_eq]
  exact le_total b.similarity a.similarity

/-- C1: `findSimilar` returns at most `k` results; each comes from a
stored ingestion with strictly positive outcome; the sequence is sorted
by similarity in descending order; and it equals the spec's
ranked query — the stable descending sort (ties kept in insertion
order, earliest first) of the successful results, truncated to `k`. -/
theorem findSimilar_ranked (ops : List StoreCall) (p : Pattern) (k : ℕ) :
    (findSimilar (mkState ops) p k).length ≤ k
    ∧ (findSimilar (mkState ops) p k).Forall
        (fun r => 0 < r.outcome ∧
          (r.pattern, r.outcome) ∈ ops.map fun c => (c.pattern, c.outcome))
    ∧ (findSimilar (mkState ops) p k).Pairwise
        (fun a b => b.similarity ≤ a.similarity)
    ∧ findSimilar (mkState ops) p k = specRankedQuery (queryResults (mkState ops) p) k := by
  refine ⟨?_, ?_, ?_, ?_⟩
  · simp only [findSimilar]
    split_ifs
    · simp
    · exact List.length_take_le k _
  · rw [List.forall_iff_forall_mem]
    intro r hr
    simp only [findSimilar] at hr
    split_ifs at hr
    · exact absurd hr (List.not_mem_nil r)
    · have h1 : r ∈ ((queryResults (mkState ops) p).filter fun r => r.success).mergeSort
          simLE := List.mem_of_mem_take hr
      rw [List.mem_mergeSort] at h1
      have hsucc : r.success = true := List.of_mem_filter h1
      have h2 : r ∈ queryResults (mkState ops) p := List.mem_of_mem_filter h1
      simp only [queryResults, List.mem_map] at h2
      obtain ⟨⟨e, s⟩, hmem, rfl⟩ := h2
      obtain ⟨hpat, -⟩ := List.of_mem_zip hmem
      rw [(mkState_spec ops).1, List.mem_map] at hpat
      obtain ⟨⟨i, c⟩, hic, rfl⟩ := hpat
      have hc : c ∈ ops := by
        have := List.mem_enum_iff_getElem?.mp hic
        exact List.getElem?_mem this
      have hout : (0:ℚ) < c.outcome := by
        have : decide (0 < c.outcome) = true := hsucc
        exact of_decide_eq_true this
      exact ⟨hout, List.mem_map_of_mem _ hc⟩
  · simp only [findSimilar]
    split_ifs
    · exact List.Pairwise.nil
    · have hs := List.sorted_mergeSort simLE_trans simLE_total
        ((queryResults (mkState ops) p).filter fun r => r.success)
      have hs' := hs.imp fun hab => of_decide_eq_true hab
      exact hs'.sublist (List.take_sublist _ _)
  · simp only [findSimilar, specRankedQuery]
    split_ifs with hv
    · have hvec : (mkState ops).vectors = [] := List.length_eq_zero.mp hv
      have : queryResults (mkState ops) p = [] := by
        simp [queryResults, manualCosineSimilarity, hvec]
      simp [this]
    · rw [List.mergeSort_enum]

end NeuralTrading
